import Mathlib

/-!
Shallow embedding of `git-hook.go` (doloopwhile/go-git-hook).

The program manages per-timing git hook registries.  For one timing the
relevant mutable state is a pair of filesystem objects inside the git
directory: the registry file `<timing>.hooks` (a text file, or absent) and
the installed-artifact directory `<timing>.installed` (a set of file
names).  All operations of the program touch only the files of the timing
they are given, so the state is modelled per timing (`Fs` below) and the
timing string is threaded as a parameter where the source functions take
one.

External collaborators are modelled by oracles:
* the result of a descriptor's install action (`net/http` fetch + write,
  or `os.Symlink`) is an `Env` function from target file name and hook to
  an optional error;
* the git binary (`git rev-parse --git-dir`) and the rebase-state
  directory probes are booleans in `TestEnv`;
* child-process execution in the dispatcher is a `TestEnv` function from
  script path to an optional error.

Strings are Lean `String`s; the byte-level Go operations are modelled on
the character lists (`String.data`), which agrees with the Go code for
ASCII data (all concrete inputs used below are ASCII).  `net/url` is an
external library; `goUrlParse`/`urlString` below model the subset of
`url.Parse`/`URL.String` relevant to `http`/`https` URLs made of
`scheme://authority[/path]` — userinfo, IPv6 literals, query and fragment
splitting are outside the modelled subset (noted at the definitions).
-/

namespace GitHook

/-! ### Basic character/string helpers -/

/-- ASCII whitespace recognised by `strings.TrimSpace` (the Unicode
whitespace code points beyond ASCII are not modelled; all inputs used in
the development are ASCII). -/
def isSpaceChar (c : Char) : Bool :=
  c = ' ' || c = '\t' || c = '\n' || c = '\x0b' || c = '\x0c' || c = '\r'

/-- Trim leading and trailing whitespace from a character list
(`strings.TrimSpace`). -/
def trimL (l : List Char) : List Char :=
  ((l.dropWhile isSpaceChar).reverse.dropWhile isSpaceChar).reverse

/-- Trim leading and trailing whitespace from a string
(`strings.TrimSpace`). -/
def trimSpace (s : String) : String :=
  String.mk (trimL s.data)

/-- Does `p` occur as a prefix of `l`?  Models Go `strings.HasPrefix`
(byte-wise; equivalent to character-wise comparison for ASCII prefixes of
valid UTF-8 strings). -/
def leadsWith : List Char → List Char → Bool
  | [], _ => true
  | _, [] => false
  | p :: ps, c :: cs => p = c && leadsWith ps cs

/-- Drop a single trailing carriage return, as `bufio.ScanLines` does to
each produced line (`dropCR` in `bufio`). -/
def dropCR (l : List Char) : List Char :=
  if l.getLast? = some '\r' then l.dropLast else l

/-- Accumulator loop for the line scanner.  `acc` holds the characters of
the current line in reverse.  A final unterminated line is emitted; a
terminating newline at the very end produces no extra empty line. -/
def scanLinesAux (acc : List Char) : List Char → List (List Char)
  | [] => [dropCR acc.reverse]
  | ['\n'] => [dropCR acc.reverse]
  | '\n' :: rest => dropCR acc.reverse :: scanLinesAux [] rest
  | c :: rest => scanLinesAux (c :: acc) rest

/-- Lines produced by a `bufio.Scanner` with `ScanLines` over the given
content: split at newlines, no trailing empty line for newline-terminated
input, one trailing `\r` stripped per line, and no lines at all for empty
input. -/
def scanLinesL : List Char → List (List Char)
  | [] => []
  | c :: cs => scanLinesAux [] (c :: cs)

/-- Trailing-slash stripper used by `filepath.Base`. -/
def dropTrailingSlashes (l : List Char) : List Char :=
  (l.reverse.dropWhile (fun c => c = '/')).reverse

/-- Go `filepath.Base` (Unix rules): empty path gives `"."`, an
all-slashes path gives `"/"`, otherwise the last path element after
stripping trailing slashes. -/
def filepathBase (s : String) : String :=
  if s.data = [] then "."
  else
    let cs := dropTrailingSlashes s.data
    if cs = [] then "/"
    else String.mk ((cs.reverse.takeWhile (fun c => c ≠ '/')).reverse)

/-! ### Model of the `net/url` subset used by `UrlHook`

`goUrlParse` models `url.Parse` on strings that begin with `http://` or
`https://`: the authority runs to the first `/`, the rest is the path.
Control characters anywhere are rejected; invalid percent escapes in
authority or path are rejected; spaces and a few other forbidden
characters in the host are rejected; a port introduced by the last `:` of
the authority must be digits.  `urlString` models `URL.String` for such
URLs: scheme, `://`, the host re-escaped, and the escaped path (the raw
path when it is validly encoded, otherwise the decoded path re-escaped).
Userinfo (`@`), IPv6 bracket literals, query (`?`) and fragment (`#`)
splitting are not modelled; for authorities or paths containing those
characters the conservative escaping below makes `urlString` differ from
the input, so no round-trip identity is asserted for them. -/

def isHexChar (c : Char) : Bool :=
  ('0' ≤ c && c ≤ '9') || ('a' ≤ c && c ≤ 'f') || ('A' ≤ c && c ≤ 'F')

def hexVal (c : Char) : Nat :=
  if '0' ≤ c && c ≤ '9' then c.toNat - '0'.toNat
  else if 'a' ≤ c && c ≤ 'f' then c.toNat - 'a'.toNat + 10
  else c.toNat - 'A'.toNat + 10

def hexUpper (n : Nat) : Char :=
  if n < 10 then Char.ofNat ('0'.toNat + n) else Char.ofNat ('A'.toNat + n - 10)

/-- Percent-decoding (`url.unescape`): fails on a `%` not followed by two
hex digits. -/
def percentDecode : List Char → Option (List Char)
  | [] => some []
  | '%' :: a :: b :: rest =>
    if isHexChar a && isHexChar b then
      (percentDecode rest).map (fun ds => Char.ofNat (16 * hexVal a + hexVal b) :: ds)
    else none
  | '%' :: _ => none
  | c :: rest => (percentDecode rest).map (fun ds => c :: ds)

/-- Characters Go escapes in a URL path (`shouldEscape` with
`encodePath`): everything but ASCII alphanumerics, the unreserved marks,
and the sub-delimiters kept in paths; of the kept sub-delimiter set `?`
is still escaped. -/
def shouldEscapePath (c : Char) : Bool :=
  if c.isAlphanum then false
  else if c = '-' || c = '_' || c = '.' || c = '~' then false
  else if c = '$' || c = '&' || c = '+' || c = ',' || c = '/' || c = ':'
       || c = ';' || c = '=' || c = '?' || c = '@' then c = '?'
  else true

/-- Characters Go escapes in a host (`shouldEscape` with `encodeHost`). -/
def shouldEscapeHost (c : Char) : Bool :=
  if c.isAlphanum then false
  else if c = '-' || c = '_' || c = '.' || c = '~' then false
  else if c = '!' || c = '$' || c = '&' || c = '\x27' || c = '(' || c = ')'
       || c = '*' || c = '+' || c = ',' || c = ';' || c = '=' || c = ':'
       || c = '[' || c = ']' || c = '<' || c = '>' || c = '"' then false
  else true

/-- Percent-encode one character (ASCII; Go escapes each byte). -/
def percentEncodeChar (c : Char) : List Char :=
  ['%', hexUpper (c.toNat / 16), hexUpper (c.toNat % 16)]

def escapeWith (f : Char → Bool) (l : List Char) : List Char :=
  l.flatMap (fun c => if f c then percentEncodeChar c else [c])

/-- Go `validEncoded` for path mode: is the raw path already a valid
encoding (so that `EscapedPath` may return it verbatim)? -/
def validEncodedPath (l : List Char) : Bool :=
  l.all (fun c =>
    c = '!' || c = '$' || c = '&' || c = '\x27' || c = '(' || c = ')'
    || c = '*' || c = '+' || c = ',' || c = ';' || c = '=' || c = ':'
    || c = '@' || c = '[' || c = ']' || c = '%' || !shouldEscapePath c)

/-- Modelled result of `url.Parse`: scheme, decoded host, raw path as
given, decoded path. -/
structure GoUrl where
  scheme : String
  host : String
  rawPath : String
  path : String
deriving DecidableEq, Repr

/-- Characters rejected inside a host name by `url.Parse`. -/
def badHostChar (c : Char) : Bool :=
  c = ' ' || c = '<' || c = '>' || c = '"'

/-- Digits-only check for an optional port (`validOptionalPort`). -/
def validPortChars (l : List Char) : Bool :=
  l.all (fun c => '0' ≤ c && c ≤ '9')

/-- Port validation on a raw authority: the segment after the last `:`
must be all digits (an authority without `:` has no port). -/
def authorityPortOk (auth : List Char) : Bool :=
  if auth.contains ':' then
    validPortChars ((auth.reverse.takeWhile (fun c => c ≠ ':')).reverse)
  else true

/-- Model of `url.Parse` restricted to strings with an `http://` or
`https://` prefix (see the section comment for the modelled subset). -/
def goUrlParse (s : String) : Option GoUrl :=
  let cs := s.data
  if cs.any (fun c => c.toNat < 0x20 || c.toNat = 0x7f) then none
  else
    let (scheme, rest) :=
      if leadsWith "http://".data cs then ("http", cs.drop 7)
      else ("https", cs.drop 8)
    let auth := rest.takeWhile (fun c => c ≠ '/')
    let rawPath := rest.dropWhile (fun c => c ≠ '/')
    if !authorityPortOk auth then none
    else
      match percentDecode auth, percentDecode rawPath with
      | some host, some path =>
        if host.any badHostChar then none
        else some ⟨scheme, String.mk host, String.mk rawPath, String.mk path⟩
      | _, _ => none

/-- Go `URL.EscapedPath`: the raw path when validly encoded, otherwise
the decoded path re-escaped. -/
def escapedPathOf (raw decoded : List Char) : List Char :=
  if validEncodedPath raw then raw else escapeWith shouldEscapePath decoded

/-- Model of `URL.String` for the URLs produced by `goUrlParse`. -/
def urlString (u : GoUrl) : String :=
  String.mk (u.scheme.data ++ "://".data
    ++ escapeWith shouldEscapeHost u.host.data
    ++ escapedPathOf u.rawPath.data u.path.data)

/-! ### Hook descriptors and the resolver -/

/-- Error values surfaced by the program (Go `error` values; only the
taxonomy matters here). -/
inductive GoError where
  | parseError (msg : String)
  | ioError (msg : String)
deriving DecidableEq, Repr

/-- The two descriptor variants behind the `Hook` interface: `UrlHook`
(holding the parsed `*url.URL`) and `FileHook` (holding the path
string). -/
inductive Hook where
  | url (u : GoUrl)
  | file (path : String)
deriving DecidableEq, Repr

/-- The `String()` method of the two variants: `UrlHook` re-serializes
the parsed URL, `FileHook` returns the stored path. -/
def hookString : Hook → String
  | .url u => urlString u
  | .file p => p

/-- The `Name()` method of the two variants: `filepath.Base` of the URL
path, resp. of the stored path. -/
def hookName : Hook → String
  | .url u => filepathBase u.path
  | .file p => filepathBase p

/-- Does the string carry the literal `http://` or `https://` prefix
checked by `ParseUrlHook`? -/
def startsWithHttp (s : String) : Bool :=
  leadsWith "http://".data s.data || leadsWith "https://".data s.data

/-- `ParseUrlHook`: reject strings without the scheme prefix, otherwise
delegate to `url.Parse` and wrap the result. -/
def ParseUrlHook (s : String) : Except GoError Hook :=
  if !startsWithHttp s then
    .error (.parseError (String.mk ('$' :: s.data ++ " is not url of http".data)))
  else
    match goUrlParse s with
    | some u => .ok (.url u)
    | none => .error (.parseError "url parse error")

/-- `ParseFileHook`: unconditionally wrap the string as a local hook. -/
def ParseFileHook (s : String) : Except GoError Hook :=
  .ok (.file s)

/-- `ParseHookString`: try `ParseUrlHook`, then `ParseFileHook`; the
first success wins.  (In the Go source the loop variable `err` shadows
the outer one, so the all-parsers-failed exit would return a nil error;
that exit is unreachable because `ParseFileHook` never fails.) -/
def ParseHookString (s : String) : Except GoError Hook :=
  match ParseUrlHook s with
  | .ok h => .ok h
  | .error _ =>
    match ParseFileHook s with
    | .ok h => .ok h
    | .error e => .error e

/-! ### Timings -/

/-- The fixed set of git hook event names (`timings` in the source, in
source order). -/
def timings : List String :=
  ["applypatch-msg", "pre-applypatch", "post-applypatch", "pre-commit",
   "prepare-commit-msg", "commit-msg", "post-commit", "pre-rebase",
   "post-checkout", "post-merge", "pre-receive", "update", "post-update",
   "pre-auto-gc", "post-rewrite"]

/-- `isCorrectTiming`: membership in the fixed timing set. -/
def isCorrectTiming (timing : String) : Bool :=
  timings.any (fun t => t = timing)

/-! ### Per-timing filesystem state and the registry store -/

/-- The per-timing filesystem state: the contents of the registry file
`<git-dir>/hooks/<timing>.hooks` (`none` when the file is absent) and the
names of the files in the installed-artifact directory
`<git-dir>/hooks/<timing>.installed`.  File names in a directory are
unique; `installed` lists them without duplicates (insertion keeps the
list duplicate-free). -/
structure Fs where
  registry : Option String
  installed : List String
deriving DecidableEq, Repr

/-- Oracle for the fallible external effects of an install action (the
`Install` method: HTTP fetch plus `ioutil.WriteFile`, or `os.Symlink`),
keyed by the target file name inside the installed directory and the
descriptor.  `none` means the action succeeds and creates the target
file. -/
structure Env where
  installResult : String → Hook → Option GoError

/-- Create a file name in a directory listing, without duplicating an
existing name. -/
def insertFile (name : String) (dir : List String) : List String :=
  if dir.contains name then dir else dir ++ [name]

/-- The registry lines `allHooks` keeps from a registry file content:
the scanner's lines whose whitespace-trimmed form is non-empty.  Note
the kept line is the original `sc.Text()`, not its trimmed form. -/
def keptLines (content : String) : List String :=
  ((scanLinesL content.data).filter (fun l => trimL l ≠ [])).map String.mk

/-- Parse loop of `allHooks`: resolve each kept line, stopping at the
first parse error. -/
def parseLines : List String → Except GoError (List Hook)
  | [] => .ok []
  | l :: ls =>
    match ParseHookString l with
    | .error e => .error e
    | .ok h =>
      match parseLines ls with
      | .error e => .error e
      | .ok hs => .ok (h :: hs)

/-- `allHooks`: open the registry file (failing when it is absent), scan
its lines keeping those with non-empty trimmed text, and resolve each
kept line through `ParseHookString`. -/
def allHooks (fs : Fs) : Except GoError (List Hook) :=
  match fs.registry with
  | none => .error (.ioError "open: no such file or directory")
  | some content => parseLines (keptLines content)

/-! ### Installer -/

/-- Artifact file name for index `i` and hook `h`:
`fmt.Sprintf("%d-%s", i, h.Name())`. -/
def fileName (i : Nat) (h : Hook) : String :=
  String.mk ((toString i).data ++ '-' :: (hookName h).data)

/-- `updateHookScript`: ensure the installed directory exists (modelled
as infallible), compute the target name from the index and the hook's
short name, and run the hook's install action; on success the target
file exists in the directory.  The `gitDirPath` resolution and progress
printing are not modelled (resolution failure is subsumed by the install
oracle for the purposes of the claims below). -/
def updateHookScript (env : Env) (fs : Fs) (i : Nat) (h : Hook) :
    Fs × Option GoError :=
  match env.installResult (fileName i h) h with
  | some e => (fs, some e)
  | none => ({ fs with installed := insertFile (fileName i h) fs.installed }, none)

/-- Install loop of `updateHooks`: install each hook in order with
sequential indices, stopping at the first failure. -/
def installLoop (env : Env) (fs : Fs) (i : Nat) : List Hook → Fs × Option GoError
  | [] => (fs, none)
  | h :: hs =>
    match updateHookScript env fs i h with
    | (fs1, some e) => (fs1, some e)
    | (fs1, none) => installLoop env fs1 (i + 1) hs

/-- `updateHooks` (the `update` command / `syncAll`): read the registry,
create the installed directory, remove every file the glob `*` finds in
it (Go's `filepath.Match` matches dot-files with `*`, so every entry is
removed; removal is modelled as infallible, which is equivalent for runs
that succeed), then install each hook in registry order starting at
index 0. -/
def updateHooks (env : Env) (fs : Fs) : Fs × Option GoError :=
  match allHooks fs with
  | .error e => (fs, some e)
  | .ok hooks => installLoop env { fs with installed := [] } 0 hooks

/-- The hook list `installHook` works with: the `allHooks` result with a
read error silently discarded (the source never checks this `err`), so a
missing or unreadable registry behaves as an empty one. -/
def readHooksLenient (fs : Fs) : List Hook :=
  match allHooks fs with
  | .ok hs => hs
  | .error _ => []

/-- `installHook` (the `install` command / `installAppend`): resolve the
string, install the descriptor at index `len(hooks)` of the leniently
read registry, and only after a successful install open the registry
file in append/create mode and append the descriptor's serialized form
plus a newline. -/
def installHook (env : Env) (fs : Fs) (s : String) : Fs × Option GoError :=
  match ParseHookString s with
  | .error e => (fs, some e)
  | .ok h =>
    let hooks := readHooksLenient fs
    match updateHookScript env fs hooks.length h with
    | (fs1, some e) => (fs1, some e)
    | (fs1, none) =>
      let old := match fs1.registry with
        | some content => content
        | none => ""
      ({ fs1 with registry := some (old ++ hookString h ++ "\n") }, none)

/-! ### Dispatcher -/

/-- Oracles for the dispatcher's external collaborators: whether
`git rev-parse --git-dir` fails, whether the `rebase-merge` and
`rebase-apply` state directories exist, and the result of running one
installed script as a child process (`none` = exit status 0). -/
structure TestEnv where
  gitDirFails : Bool
  rebaseMerge : Bool
  rebaseApply : Bool
  execResult : String → Option GoError

/-- A recorded child-process invocation: the executable path and the
extra command-line arguments passed to it. -/
structure Proc where
  path : String
  args : List String
deriving DecidableEq, Repr

/-- `gitRebaseInProgress`: resolve the git directory, then report whether
either rebase state directory exists. -/
def gitRebaseInProgress (env : TestEnv) : Except GoError Bool :=
  if env.gitDirFails then .error (.ioError "git rev-parse failed")
  else .ok (env.rebaseMerge || env.rebaseApply)

/-- Byte-wise lexicographic order on strings (code-point order; for
valid UTF-8 this equals the byte order `sort.Strings` uses inside
`filepath.Glob`). -/
def strLtL : List Char → List Char → Bool
  | [], [] => false
  | [], _ :: _ => true
  | _ :: _, [] => false
  | a :: as, b :: bs =>
    if a.toNat < b.toNat then true
    else if b.toNat < a.toNat then false
    else strLtL as bs

def strLeB (a b : String) : Bool :=
  !strLtL b.data a.data

def insertSorted (s : String) : List String → List String
  | [] => [s]
  | t :: ts => if strLeB s t then s :: t :: ts else t :: insertSorted s ts

/-- Sorted file-name list, as `filepath.Glob` returns its matches. -/
def sortStrings (l : List String) : List String :=
  l.foldr insertSorted []

/-- Execution loop of `runTest`: run each script in order with no extra
arguments (`exec.Command(script)`), recording every invocation, and stop
at the first failure, returning its error. -/
def runSeq (env : TestEnv) : List String → List Proc × Option GoError
  | [] => ([], none)
  | s :: ss =>
    match env.execResult s with
    | some e => ([⟨s, []⟩], some e)
    | none =>
      let (ps, r) := runSeq env ss
      (⟨s, []⟩ :: ps, r)

/-- `runTest` (the `test` command, git's entry point): if a rebase is in
progress, run nothing and return nil (the `fmt.Errorf` value there is
discarded); otherwise glob the installed directory (sorted matches) and
run each artifact sequentially.  The `args` the command received are
accepted but never used.  Returns the recorded invocations and the
final result. -/
def runTest (env : TestEnv) (fs : Fs) (timing : String) (args : List String) :
    List Proc × Option GoError :=
  match gitRebaseInProgress env with
  | .error e => ([], some e)
  | .ok true => ([], none)
  | .ok false => runSeq env (sortStrings fs.installed)

/-! ### Resolver lemmas -/

/-- The resolver never fails: `ParseFileHook` accepts every string, so the
fallthrough always produces a hook. -/
theorem ParseHookString_isOk (s : String) : ∃ h, ParseHookString s = .ok h := by
  unfold ParseHookString
  cases hu : ParseUrlHook s with
  | ok h => exact ⟨h, rfl⟩
  | error e => exact ⟨.file s, rfl⟩

/-- Total version of the resolver, used to state what the fallible loops
compute (the fallback arm is unreachable by `ParseHookString_isOk`). -/
def parseTotal (s : String) : Hook :=
  match ParseHookString s with
  | .ok h => h
  | .error _ => .file s

theorem parseLines_ok (ls : List String) : parseLines ls = .ok (ls.map parseTotal) := by
  induction ls with
  | nil => rfl
  | cons l ls ih =>
    obtain ⟨h, hh⟩ := ParseHookString_isOk l
    simp only [parseLines, hh, ih, List.map_cons, parseTotal]

/-! ### Claim C4 -/

/-- Claim C4, counterexample: the URL form does not round-trip
byte-identically.  The input `http://h/a b` is accepted by the resolver
as a `UrlHook`, but its re-serialization percent-encodes the space, so
the stored registry line differs from the input. -/
theorem roundtrip_url_cex :
    ParseHookString "http://h/a b" = .ok (.url ⟨"http", "h", "/a b", "/a b"⟩) ∧
    hookString (.url ⟨"http", "h", "/a b", "/a b"⟩) ≠ "http://h/a b" := by
  refine ⟨rfl, by decide⟩

/-- Claim C4 (amended): a registration string accepted by the resolver
re-serializes byte-identically for the local-path form, i.e. for every
string without the `http://`/`https://` prefix; the URL form
re-serializes to Go's normalized URL string, which can differ from the
input (see `roundtrip_url_cex`). -/
theorem roundtrip_local (S : String) (hp : startsWithHttp S = false) :
    ParseHookString S = .ok (.file S) ∧ hookString (.file S) = S := by
  refine ⟨?_, rfl⟩
  unfold ParseHookString ParseUrlHook
  rw [hp]
  rfl

theorem roundtrip_local_wit :
    ParseHookString "scripts/lint.sh" = .ok (.file "scripts/lint.sh") ∧
    hookString (.file "scripts/lint.sh") = "scripts/lint.sh" :=
  roundtrip_local "scripts/lint.sh" (by decide)

/-! ### Claim C5 -/

/-- Claim C5, counterexample: a malformed URL does not make the resolver
fail — it falls through to the local-path parser.  `http://h/%zz` starts
with the URL prefix and is rejected by the URL parser (invalid percent
escape), yet `ParseHookString` returns a `FileHook` descriptor. -/
theorem malformed_url_fallthrough_cex :
    startsWithHttp "http://h/%zz" = true ∧
    goUrlParse "http://h/%zz" = none ∧
    ParseHookString "http://h/%zz" = .ok (.file "http://h/%zz") := by
  refine ⟨by decide, by decide, rfl⟩

/-- Claim C5 (amended): an input beginning with `http://` or `https://`
parses as a `RemoteHook` when it is a well-formed URL; a malformed URL
does not produce a parse failure of the resolver but falls through to
the local-path parser, yielding a `LocalHook` wrapping the whole
string. -/
theorem resolver_url_cases (S : String) (hp : startsWithHttp S = true) :
    (∀ u, goUrlParse S = some u → ParseHookString S = .ok (.url u)) ∧
    (goUrlParse S = none → ParseHookString S = .ok (.file S)) := by
  constructor
  · intro u hu
    unfold ParseHookString ParseUrlHook
    rw [hp, hu]
    rfl
  · intro hn
    unfold ParseHookString ParseUrlHook
    rw [hp, hn]
    rfl

theorem resolver_url_cases_wit :
    ParseHookString "http://h/a.sh" = .ok (.url ⟨"http", "h", "/a.sh", "/a.sh"⟩) :=
  (resolver_url_cases "http://h/a.sh" (by decide)).1 ⟨"http", "h", "/a.sh", "/a.sh"⟩ (by decide)

/-! ### Claim C3 -/

/-- Claim C3 (confirmed): when the install action performed by
`installHook` fails, the whole state — in particular the registry file —
is left unchanged and the error is surfaced: the registry append happens
only after a successful install. -/
theorem installHook_fail_preserves_registry (env : Env) (fs : Fs) (t S : String)
    (h : Hook) (e : GoError)
    (ht : isCorrectTiming t = true)
    (hp : ParseHookString S = .ok h)
    (hf : env.installResult (fileName (readHooksLenient fs).length h) h = some e) :
    installHook env fs S = (fs, some e) := by
  simp only [installHook, hp, updateHookScript, hf]

theorem installHook_fail_preserves_registry_wit :
    installHook ⟨fun _ _ => some (.ioError "permission denied")⟩ ⟨some "a\n", ["0-a"]⟩ "x.sh"
      = (⟨some "a\n", ["0-a"]⟩, some (.ioError "permission denied")) :=
  installHook_fail_preserves_registry _ _ "pre-commit" "x.sh" (.file "x.sh")
    (.ioError "permission denied") (by decide) rfl rfl

/-! ### Claim C9 -/

/-- Claim C9 (confirmed): when the registry file is absent, `installHook`
does not fail on the read — the `allHooks` error is discarded, the
registry is treated as empty, and the new descriptor is installed at
index 0; on a successful install the registry file is created holding
exactly the one appended line. -/
theorem installHook_missing_registry (env : Env) (fs : Fs) (t S : String) (h : Hook)
    (ht : isCorrectTiming t = true)
    (hreg : fs.registry = none)
    (hp : ParseHookString S = .ok h)
    (hok : env.installResult (fileName 0 h) h = none) :
    readHooksLenient fs = [] ∧
    installHook env fs S
      = ({ registry := some (hookString h ++ "\n"),
           installed := insertFile (fileName 0 h) fs.installed }, none) := by
  have hlen : readHooksLenient fs = [] := by
    simp only [readHooksLenient, allHooks, hreg]
  refine ⟨hlen, ?_⟩
  simp only [installHook, hp, hlen, List.length_nil, updateHookScript, hok, hreg]
  rfl

theorem installHook_missing_registry_wit :
    readHooksLenient ⟨none, []⟩ = [] ∧
    installHook ⟨fun _ _ => none⟩ ⟨none, []⟩ "x.sh"
      = ({ registry := some (hookString (.file "x.sh") ++ "\n"),
           installed := insertFile (fileName 0 (.file "x.sh")) [] }, none) :=
  installHook_missing_registry ⟨fun _ _ => none⟩ ⟨none, []⟩ "pre-commit" "x.sh"
    (.file "x.sh") (by decide) rfl rfl rfl

/-! ### Claim C7 -/

/-- Claim C7 (confirmed): when a rebase-state directory exists under the
resolved git directory, the dispatcher executes no child process and
returns success, regardless of the installed-artifact directory. -/
theorem runTest_rebase_skip (env : TestEnv) (fs : Fs) (t : String) (args : List String)
    (ht : isCorrectTiming t = true)
    (hg : env.gitDirFails = false)
    (hr : env.rebaseMerge = true ∨ env.rebaseApply = true) :
    runTest env fs t args = ([], none) := by
  have hpr : gitRebaseInProgress env = .ok true := by
    rcases hr with h | h <;> simp [gitRebaseInProgress, hg, h]
  simp only [runTest, hpr]

theorem runTest_rebase_skip_wit :
    runTest ⟨false, true, false, fun _ => some (.ioError "boom")⟩ ⟨some "a\n", ["0-a"]⟩
      "pre-commit" ["msg"] = ([], none) :=
  runTest_rebase_skip _ _ _ _ (by decide) rfl (Or.inl rfl)

/-! ### Claim C10 -/

theorem runSeq_args_nil (env : TestEnv) :
    ∀ (ss : List String) (p : Proc), p ∈ (runSeq env ss).1 → p.args = [] := by
  intro ss
  induction ss with
  | nil => intro p hp; simp [runSeq] at hp
  | cons s ss ih =>
    intro p hp
    cases he : env.execResult s with
    | some e =>
      simp only [runSeq, he] at hp
      simp only [List.mem_singleton] at hp
      rw [hp]
    | none =>
      simp only [runSeq, he] at hp
      rcases List.mem_cons.mp hp with h | h
      · rw [h]
      · exact ih p h

/-- Claim C10 (confirmed): every child process the dispatcher invokes is
started with an empty argument list — the arguments git passes to the
`test` command are accepted but never forwarded to any artifact. -/
theorem runTest_zero_args (env : TestEnv) (fs : Fs) (t : String) (args : List String)
    (ht : isCorrectTiming t = true)
    (p : Proc) (hp : p ∈ (runTest env fs t args).1) : p.args = [] := by
  unfold runTest at hp
  cases hg : gitRebaseInProgress env with
  | error e => rw [hg] at hp; simp at hp
  | ok b =>
    cases b with
    | true => rw [hg] at hp; simp at hp
    | false =>
      rw [hg] at hp
      exact runSeq_args_nil env _ p hp

theorem runTest_zero_args_wit :
    Proc.args ⟨"0-a", []⟩ = [] :=
  runTest_zero_args ⟨false, false, false, fun _ => none⟩ ⟨some "a\n", ["0-a"]⟩
    "pre-commit" ["arg1", "arg2"] (by decide) ⟨"0-a", []⟩ (by decide)

/-! ### Claim C8 -/

theorem runSeq_first_fail (env : TestEnv) :
    ∀ (ss : List String) (k : Nat) (hk : k < ss.length),
      (∀ j (hj : j < k), env.execResult (ss.get ⟨j, hj.trans hk⟩) = none) →
      ∀ e, env.execResult (ss.get ⟨k, hk⟩) = some e →
      runSeq env ss = ((ss.take (k + 1)).map (fun s => ⟨s, []⟩), some e) := by
  intro ss
  induction ss with
  | nil => intro k hk; exact absurd hk (by simp)
  | cons s ss ih =>
    intro k hk hpre e hfail
    cases k with
    | zero =>
      have hs : env.execResult s = some e := hfail
      simp only [runSeq, hs, List.take_succ_cons, List.take_zero, List.map_cons,
        List.map_nil]
    | succ k =>
      have hs : env.execResult s = none := hpre 0 (Nat.succ_pos k)
      have hk2 : k < ss.length := Nat.lt_of_succ_lt_succ hk
      have ihres := ih k hk2
        (fun j hj => hpre (j + 1) (Nat.succ_lt_succ hj)) e hfail
      simp only [runSeq, hs, ihres, List.take_succ_cons, List.map_cons]

/-- Claim C8 (confirmed): outside a rebase, the dispatcher runs the
installed artifacts strictly sequentially in glob order; the first
artifact whose execution fails stops the chain — exactly the artifacts
up to and including it are invoked — and its error is returned to the
caller (giving git a non-zero exit). -/
theorem runTest_first_failure (env : TestEnv) (fs : Fs) (t : String) (args : List String)
    (ht : isCorrectTiming t = true)
    (hg : env.gitDirFails = false)
    (hm : env.rebaseMerge = false) (ha : env.rebaseApply = false)
    (k : Nat) (hk : k < (sortStrings fs.installed).length)
    (hpre : ∀ j (hj : j < k),
      env.execResult ((sortStrings fs.installed).get ⟨j, hj.trans hk⟩) = none)
    (e : GoError)
    (hfail : env.execResult ((sortStrings fs.installed).get ⟨k, hk⟩) = some e) :
    runTest env fs t args
      = (((sortStrings fs.installed).take (k + 1)).map (fun s => ⟨s, []⟩), some e) := by
  have hpr : gitRebaseInProgress env = .ok false := by
    simp [gitRebaseInProgress, hg, hm, ha]
  simp only [runTest, hpr]
  exact runSeq_first_fail env _ k hk hpre e hfail

theorem runTest_first_failure_wit :
    runTest ⟨false, false, false, fun s => if s = "0-a" then some (.ioError "exit 1") else none⟩
      ⟨some "a\nb\n", ["1-b", "0-a"]⟩ "pre-commit" []
      = ([⟨"0-a", []⟩], some (.ioError "exit 1")) :=
  runTest_first_failure _ _ _ _ (by decide) rfl rfl rfl 0 (by decide)
    (fun j hj => absurd hj (Nat.not_lt_zero j)) (.ioError "exit 1") (by decide)

/-! ### Claim C6 -/

/-- Claim C6, counterexample: `readAll` does not return the
whitespace-trimmed text of the kept lines.  For registry content
`" x \n"` the single kept line is returned as the original `" x "`
(wrapped as a local hook), not as its trimmed form `"x"`: trimming is
used only to decide which lines to skip. -/
theorem readAll_untrimmed_cex :
    allHooks ⟨some " x \n", []⟩ = .ok [.file " x "] ∧
    trimSpace " x " ≠ " x " := by
  refine ⟨rfl, by decide⟩

/-- Claim C6 (amended): for a timing whose registry file exists,
`readAll` returns one entry per line whose whitespace-trimmed form is
non-empty, in file order, silently skipping the blank lines — but each
kept entry is the original untrimmed line text (resolved through the
parser), not its trimmed form; for a timing whose registry file is
absent, `readAll` fails. -/
theorem allHooks_read_spec (fs : Fs) :
    (fs.registry = none →
      allHooks fs = .error (.ioError "open: no such file or directory")) ∧
    (∀ content, fs.registry = some content →
      allHooks fs = .ok ((keptLines content).map parseTotal)) := by
  constructor
  · intro h
    simp only [allHooks, h]
  · intro content hc
    simp only [allHooks, hc]
    exact parseLines_ok _

theorem allHooks_read_spec_wit :
    allHooks ⟨some " x \nb.sh\n\n", []⟩
      = .ok ((keptLines " x \nb.sh\n\n").map parseTotal) :=
  (allHooks_read_spec ⟨some " x \nb.sh\n\n", []⟩).2 " x \nb.sh\n\n" rfl

/-! ### Decimal rendering of artifact indices

The artifact name is `fmt.Sprintf("%d-%s", i, name)`; in the embedding
the `%d` part is `toString i` (`Nat.repr`).  `decChars` is a proof-side
restatement of the decimal rendering with a convenient recursion, shown
equal to `Nat.repr`, digit-only and injective — which makes artifact
names injective in the index. -/

def decChars (n : Nat) : List Char :=
  if h : n < 10 then [Nat.digitChar n]
  else decChars (n / 10) ++ [Nat.digitChar (n % 10)]
decreasing_by exact Nat.div_lt_self (by omega) (by omega)

theorem decChars_lt (n : Nat) (h : n < 10) : decChars n = [Nat.digitChar n] := by
  rw [decChars]
  rw [dif_pos h]

theorem decChars_ge (n : Nat) (h : ¬n < 10) :
    decChars n = decChars (n / 10) ++ [Nat.digitChar (n % 10)] := by
  rw [decChars]
  rw [dif_neg h]

theorem toDigitsCore_decChars :
    ∀ (f n : Nat) (ds : List Char), n < f →
      Nat.toDigitsCore 10 f n ds = decChars n ++ ds := by
  intro f
  induction f with
  | zero => intro n ds h; exact absurd h (Nat.not_lt_zero n)
  | succ f ih =>
    intro n ds h
    by_cases h10 : n / 10 = 0
    · have hn : n < 10 := by
        by_contra hc
        push_neg at hc
        have h1 : 1 ≤ n / 10 := (Nat.one_le_div_iff (by omega)).mpr hc
        omega
      rw [Nat.toDigitsCore, if_pos h10, decChars_lt n hn,
        Nat.mod_eq_of_lt hn, List.singleton_append]
    · have hge : 10 ≤ n := by
        by_contra hc
        push_neg at hc
        exact h10 (Nat.div_eq_of_lt hc)
      have hlt : n / 10 < f :=
        lt_of_lt_of_le (Nat.div_lt_self (by omega) (by omega)) (Nat.lt_succ_iff.mp h)
      rw [Nat.toDigitsCore, if_neg h10, ih (n / 10) _ hlt,
        decChars_ge n (Nat.not_lt.mpr hge), List.append_assoc, List.singleton_append]

theorem toString_nat_data (n : Nat) : (toString n).data = decChars n := by
  show (Nat.repr n).data = decChars n
  unfold Nat.repr Nat.toDigits
  rw [toDigitsCore_decChars (n + 1) n [] (Nat.lt_succ_self n)]
  simp [List.asString]

theorem digitChar_ne_dash : ∀ k, k < 10 → Nat.digitChar k ≠ '-' := by decide

theorem digitChar_inj10 :
    ∀ a, a < 10 → ∀ b, b < 10 → Nat.digitChar a = Nat.digitChar b → a = b := by decide

theorem decChars_ne_nil (n : Nat) : decChars n ≠ [] := by
  by_cases h : n < 10
  · rw [decChars_lt n h]
    simp
  · rw [decChars_ge n h]
    simp

theorem decChars_ne_dash (n : Nat) : ∀ c ∈ decChars n, c ≠ '-' := by
  induction n using Nat.strong_induction_on with
  | _ n ih =>
    by_cases h : n < 10
    · rw [decChars_lt n h]
      intro c hc
      rw [List.mem_singleton] at hc
      rw [hc]
      exact digitChar_ne_dash n h
    · rw [decChars_ge n h]
      intro c hc
      rcases List.mem_append.mp hc with h1 | h1
      · exact ih (n / 10) (Nat.div_lt_self (by omega) (by omega)) c h1
      · rw [List.mem_singleton] at h1
        rw [h1]
        exact digitChar_ne_dash _ (Nat.mod_lt n (by omega))

theorem decChars_inj : ∀ m n, decChars m = decChars n → m = n := by
  intro m
  induction m using Nat.strong_induction_on with
  | _ m ih =>
    intro n heq
    by_cases hm : m < 10 <;> by_cases hn : n < 10
    · rw [decChars_lt m hm, decChars_lt n hn] at heq
      simp only [List.cons.injEq, and_true] at heq
      exact digitChar_inj10 m hm n hn heq
    · rw [decChars_lt m hm, decChars_ge n hn] at heq
      have h1 := congrArg List.length heq
      simp only [List.length_singleton, List.length_append] at h1
      have h0 : (decChars (n / 10)).length = 0 := by omega
      exact absurd (List.eq_nil_of_length_eq_zero h0) (decChars_ne_nil _)
    · rw [decChars_ge m hm, decChars_lt n hn] at heq
      have h1 := congrArg List.length heq
      simp only [List.length_singleton, List.length_append] at h1
      have h0 : (decChars (m / 10)).length = 0 := by omega
      exact absurd (List.eq_nil_of_length_eq_zero h0) (decChars_ne_nil _)
    · rw [decChars_ge m hm, decChars_ge n hn] at heq
      obtain ⟨h1, h2⟩ := List.append_inj' heq (by simp)
      simp only [List.cons.injEq, and_true] at h2
      have hd : m % 10 = n % 10 :=
        digitChar_inj10 _ (Nat.mod_lt m (by omega)) _ (Nat.mod_lt n (by omega)) h2
      have hq : m / 10 = n / 10 :=
        ih (m / 10) (Nat.div_lt_self (by omega) (by omega)) (n / 10) h1
      omega

theorem splitDash : ∀ (a b x y : List Char),
    (∀ c ∈ a, c ≠ '-') → (∀ c ∈ b, c ≠ '-') →
    a ++ '-' :: x = b ++ '-' :: y → a = b ∧ x = y := by
  intro a
  induction a with
  | nil =>
    intro b x y _ hb heq
    cases b with
    | nil => simpa using heq
    | cons d bs =>
      rw [List.nil_append, List.cons_append] at heq
      injection heq with h1 h2
      exact absurd h1.symm (hb d (List.mem_cons_self d bs))
  | cons c as ih =>
    intro b x y ha hb heq
    cases b with
    | nil =>
      rw [List.nil_append, List.cons_append] at heq
      injection heq with h1 h2
      exact absurd h1 (ha c (List.mem_cons_self c as))
    | cons d bs =>
      rw [List.cons_append, List.cons_append] at heq
      injection heq with h1 h2
      obtain ⟨hab, hxy⟩ := ih bs x y
        (fun u hu => ha u (List.mem_cons_of_mem c hu))
        (fun u hu => hb u (List.mem_cons_of_mem d hu)) h2
      exact ⟨by rw [h1, hab], hxy⟩

theorem strMk_data (l : List Char) : (String.mk l).data = l := rfl

theorem fileName_inj_idx (i j : Nat) (h1 h2 : Hook) :
    fileName i h1 = fileName j h2 → i = j := by
  intro heq
  have hd := congrArg String.data heq
  simp only [fileName, strMk_data] at hd
  rw [toString_nat_data, toString_nat_data] at hd
  exact decChars_inj i j
    (splitDash _ _ _ _ (decChars_ne_dash i) (decChars_ne_dash j) hd).1

/-! ### Claim C2 -/

/-- Index-annotated hook list, starting at a given index (proof-side
description of the loop counter of `updateHooks`). -/
def enumF {α : Type} : Nat → List α → List (Nat × α)
  | _, [] => []
  | i, a :: as => (i, a) :: enumF (i + 1) as

theorem enumF_fst_ge {α : Type} (hs : List α) :
    ∀ i p, p ∈ enumF i hs → i ≤ p.1 := by
  induction hs with
  | nil => intro i p hp; simp [enumF] at hp
  | cons h hs ih =>
    intro i p hp
    rcases List.mem_cons.mp hp with h1 | h1
    · rw [h1]
    · exact le_of_lt (lt_of_lt_of_le (Nat.lt_succ_self i) (ih (i + 1) p h1))

theorem enumF_map_nodup (hs : List Hook) :
    ∀ i, ((enumF i hs).map (fun p => fileName p.1 p.2)).Nodup := by
  induction hs with
  | nil => intro i; simp [enumF]
  | cons h hs ih =>
    intro i
    simp only [enumF, List.map_cons]
    rw [List.nodup_cons]
    refine ⟨?_, ih (i + 1)⟩
    intro hmem
    obtain ⟨p, hp, heq⟩ := List.mem_map.mp hmem
    have hge := enumF_fst_ge hs (i + 1) p hp
    have hpi := fileName_inj_idx p.1 i p.2 h heq
    omega

theorem installLoop_ok (env : Env) :
    ∀ (hs : List Hook) (fs : Fs) (i : Nat) (fs2 : Fs),
      (∀ p ∈ enumF i hs, fileName p.1 p.2 ∉ fs.installed) →
      installLoop env fs i hs = (fs2, none) →
      fs2.installed = fs.installed ++ (enumF i hs).map (fun p => fileName p.1 p.2) ∧
      fs2.registry = fs.registry := by
  intro hs
  induction hs with
  | nil =>
    intro fs i fs2 _ hok
    simp only [installLoop, Prod.mk.injEq] at hok
    rw [hok.1.symm]
    simp [enumF]
  | cons h hs ih =>
    intro fs i fs2 hfresh hok
    cases hres : env.installResult (fileName i h) h with
    | some e =>
      simp only [installLoop, updateHookScript, hres, Prod.mk.injEq] at hok
      exact absurd hok.2 (by simp)
    | none =>
      simp only [installLoop, updateHookScript, hres] at hok
      have hnotin : fileName i h ∉ fs.installed :=
        hfresh (i, h) (by simp [enumF])
      have hins : insertFile (fileName i h) fs.installed
          = fs.installed ++ [fileName i h] := by
        simp [insertFile, hnotin]
      obtain ⟨hi1, hi2⟩ := ih _ (i + 1) fs2 (by
        intro p hp
        have hge := enumF_fst_ge hs (i + 1) p hp
        have hni : fileName p.1 p.2 ∉ fs.installed :=
          hfresh p (by simp [enumF]; right; exact hp)
        show fileName p.1 p.2 ∉ insertFile (fileName i h) fs.installed
        rw [hins]
        intro hmem
        rcases List.mem_append.mp hmem with hmem1 | hmem1
        · exact hni hmem1
        · rw [List.mem_singleton] at hmem1
          have := fileName_inj_idx p.1 i p.2 h hmem1
          omega) hok
      constructor
      · rw [hi1]
        show insertFile (fileName i h) fs.installed ++ _ = _
        rw [hins]
        simp [enumF, List.append_assoc]
      · exact hi2

/-- Claim C2 (confirmed): after a successful `updateHooks` run the
installed directory for the timing holds exactly one artifact per
registry entry and nothing else — the directory listing is precisely the
names `<index>-<short name>` in registry order with indices from 0, the
names are pairwise distinct, the registry itself is untouched, and the
artifact count equals the number of registry entries. -/
theorem updateHooks_sync_spec (env : Env) (fs : Fs) (t : String) (fs2 : Fs)
    (ht : isCorrectTiming t = true)
    (hok : updateHooks env fs = (fs2, none)) :
    ∃ hooks, allHooks fs = .ok hooks ∧
      fs2.installed = (enumF 0 hooks).map (fun p => fileName p.1 p.2) ∧
      fs2.installed.Nodup ∧
      fs2.registry = fs.registry ∧
      (∀ content, fs.registry = some content →
        hooks.length = (keptLines content).length) := by
  unfold updateHooks at hok
  cases hh : allHooks fs with
  | error e =>
    rw [hh] at hok
    exact absurd (congrArg Prod.snd hok) (by simp)
  | ok hooks =>
    rw [hh] at hok
    obtain ⟨hinst, hreg⟩ := installLoop_ok env hooks { fs with installed := [] } 0 fs2
      (by intro p hp; simp) hok
    refine ⟨hooks, rfl, by simpa using hinst, ?_, hreg, ?_⟩
    · rw [show fs2.installed = (enumF 0 hooks).map (fun p => fileName p.1 p.2) by
        simpa using hinst]
      exact enumF_map_nodup hooks 0
    · intro content hc
      simp only [allHooks, hc, parseLines_ok] at hh
      injection hh with hh2
      rw [hh2.symm, List.length_map]

theorem updateHooks_sync_spec_wit :
    ∃ hooks, allHooks ⟨some "a\nhttp://h/b.sh\n", ["junk"]⟩ = .ok hooks ∧
      Fs.installed ⟨some "a\nhttp://h/b.sh\n", ["0-a", "1-b.sh"]⟩
        = (enumF 0 hooks).map (fun p => fileName p.1 p.2) ∧
      (Fs.installed ⟨some "a\nhttp://h/b.sh\n", ["0-a", "1-b.sh"]⟩).Nodup ∧
      Fs.registry ⟨some "a\nhttp://h/b.sh\n", ["0-a", "1-b.sh"]⟩
        = Fs.registry ⟨some "a\nhttp://h/b.sh\n", ["junk"]⟩ ∧
      (∀ content, Fs.registry ⟨some "a\nhttp://h/b.sh\n", ["junk"]⟩ = some content →
        hooks.length = (keptLines content).length) :=
  updateHooks_sync_spec ⟨fun _ _ => none⟩ ⟨some "a\nhttp://h/b.sh\n", ["junk"]⟩
    "pre-commit" ⟨some "a\nhttp://h/b.sh\n", ["0-a", "1-b.sh"]⟩ (by decide) rfl

/-! ### Line-scanner lemmas (towards claim C1) -/

theorem strData_append (a b : String) : (a ++ b).data = a.data ++ b.data := by
  cases a
  cases b
  rfl

theorem strEta (s : String) : String.mk s.data = s := rfl

theorem dropCR_no_r (S : List Char) (h : '\r' ∉ S) : dropCR S = S := by
  unfold dropCR
  rw [if_neg]
  intro heq
  exact h (List.mem_of_getLast?_eq_some heq)

theorem scanLinesAux_nil (acc : List Char) : scanLinesAux acc [] = [dropCR acc.reverse] := rfl

theorem scanLinesAux_nl_only (acc : List Char) :
    scanLinesAux acc ['\n'] = [dropCR acc.reverse] := rfl

theorem scanLinesAux_cons_ne (acc : List Char) (c : Char) (l : List Char) (hc : c ≠ '\n') :
    scanLinesAux acc (c :: l) = scanLinesAux (c :: acc) l := by
  conv_lhs => rw [scanLinesAux.eq_def]
  split <;> simp_all

theorem scanLinesAux_cons_nl (acc : List Char) (l : List Char) (hl : l ≠ []) :
    scanLinesAux acc ('\n' :: l) = dropCR acc.reverse :: scanLinesAux [] l := by
  conv_lhs => rw [scanLinesAux.eq_def]
  split
  case h_4 hne heq =>
    rcases heq with ⟨h1, h2⟩
    exact absurd rfl hne
  all_goals simp_all

theorem scanLinesAux_line : ∀ (S : List Char), '\n' ∉ S →
    ∀ acc, scanLinesAux acc (S ++ ['\n']) = [dropCR (acc.reverse ++ S)] := by
  intro S
  induction S with
  | nil =>
    intro _ acc
    rw [List.nil_append, scanLinesAux_nl_only, List.append_nil]
  | cons c cs ih =>
    intro hS acc
    have hc : c ≠ '\n' := fun h => hS (h ▸ List.mem_cons_self c cs)
    rw [List.cons_append, scanLinesAux_cons_ne acc c _ hc,
      ih (fun h => hS (List.mem_cons_of_mem c h)) (c :: acc)]
    simp [List.reverse_cons, List.append_assoc]

theorem scanLinesAux_split : ∀ (a : List Char), a ≠ [] → a.getLast? = some '\n' →
    ∀ acc rest, rest ≠ [] →
      scanLinesAux acc (a ++ rest) = scanLinesAux acc a ++ scanLinesAux [] rest := by
  intro a
  induction a with
  | nil => intro h; exact absurd rfl h
  | cons c cs ih =>
    intro _ hlast acc rest hrest
    cases cs with
    | nil =>
      have hc : c = '\n' := by simpa using hlast
      subst hc
      rw [List.cons_append, List.nil_append, scanLinesAux_cons_nl acc rest hrest,
        scanLinesAux_nl_only]
      rfl
    | cons d ds =>
      have hlast2 : (d :: ds).getLast? = some '\n' := by
        rw [List.getLast?_cons_cons] at hlast
        exact hlast
      by_cases hc : c = '\n'
      · subst hc
        rw [List.cons_append, scanLinesAux_cons_nl acc _ (by simp),
          scanLinesAux_cons_nl acc _ (by simp),
          ih (by simp) hlast2 [] rest hrest, List.cons_append]
      · rw [List.cons_append, scanLinesAux_cons_ne acc c _ hc,
          scanLinesAux_cons_ne acc c _ hc]
        exact ih (by simp) hlast2 (c :: acc) rest hrest

theorem scanLinesL_ne (l : List Char) (h : l ≠ []) : scanLinesL l = scanLinesAux [] l := by
  cases l with
  | nil => exact absurd rfl h
  | cons c cs => rfl

theorem scanLinesL_append_line (old S : List Char)
    (hold : old = [] ∨ old.getLast? = some '\n')
    (hnl : '\n' ∉ S) (hcr : '\r' ∉ S) :
    scanLinesL (old ++ S ++ ['\n']) = scanLinesL old ++ [S] := by
  rcases hold with h | h
  · subst h
    rw [List.nil_append, scanLinesL_ne _ (by simp), scanLinesAux_line S hnl []]
    simp [scanLinesL, dropCR_no_r S hcr]
  · have hone : old ≠ [] := by
      intro h0
      rw [h0] at h
      simp at h
    rw [List.append_assoc, scanLinesL_ne _ (by simp [hone]),
      scanLinesAux_split old hone h [] (S ++ ['\n']) (by simp),
      scanLinesAux_line S hnl [], scanLinesL_ne old hone]
    simp [dropCR_no_r S hcr]

theorem keptLines_append (old S : String)
    (hold : old.data = [] ∨ old.data.getLast? = some '\n')
    (hnl : '\n' ∉ S.data) (hcr : '\r' ∉ S.data) (htr : trimL S.data ≠ []) :
    keptLines (old ++ S ++ "\n") = keptLines old ++ [S] := by
  unfold keptLines
  have hdata : (old ++ S ++ "\n").data = old.data ++ S.data ++ ['\n'] := by
    rw [strData_append, strData_append]
  rw [hdata, scanLinesL_append_line old.data S.data hold hnl hcr,
    List.filter_append]
  simp [htr, strEta]

/-! ### Claim C1 -/

/-- Claim C1, counterexample: a registration string consisting only of
whitespace is accepted and installed (the resolver wraps `" "` as a local
hook, the symlink target `0- ` is fresh, the line `" "` plus a newline is
appended to the registry) — but `readAll` then skips the appended line as
blank, so the resulting list is empty and its last entry is not the
registered string. -/
theorem installAppend_blank_cex :
    installHook ⟨fun _ _ => none⟩ ⟨some "", []⟩ " " = (⟨some " \n", ["0- "]⟩, none) ∧
    keptLines " \n" = [] ∧
    (keptLines " \n").getLast? ≠ some " " := by
  refine ⟨rfl, rfl, by decide⟩

/-- Claim C1 (amended): for a registration string whose whitespace-trim
is non-empty, which contains no newline or carriage-return character,
and whose resolved descriptor re-serializes to the string itself (true
for every local-path string; for URL strings exactly when Go's URL
normalization is the identity), a successful `installHook` on a registry
file that is absent, empty, or newline-terminated makes `readAll` return
a list whose last entry is the registered string. -/
theorem installAppend_readAll_last (env : Env) (fs : Fs) (t S : String) (h : Hook)
    (fs2 : Fs)
    (ht : isCorrectTiming t = true)
    (hp : ParseHookString S = .ok h)
    (hser : hookString h = S)
    (hnl : '\n' ∉ S.data) (hcr : '\r' ∉ S.data)
    (htr : trimL S.data ≠ [])
    (hreg : fs.registry = none ∨ fs.registry = some "" ∨
      ∃ c, fs.registry = some c ∧ c.data.getLast? = some '\n')
    (hok : installHook env fs S = (fs2, none)) :
    ∃ content, fs2.registry = some content ∧
      (keptLines content).getLast? = some S := by
  cases hres : env.installResult (fileName (readHooksLenient fs).length h) h with
  | some e =>
    simp only [installHook, hp, updateHookScript, hres] at hok
    exact absurd (congrArg Prod.snd hok) (by simp)
  | none =>
    rcases hreg with h0 | h0 | ⟨c, hc, hlast⟩
    · simp only [installHook, hp, updateHookScript, hres, h0, Prod.mk.injEq] at hok
      refine ⟨"" ++ S ++ "\n", ?_, ?_⟩
      · rw [hok.1.symm, hser]
      · rw [keptLines_append "" S (Or.inl rfl) hnl hcr htr]
        simp
    · simp only [installHook, hp, updateHookScript, hres, h0, Prod.mk.injEq] at hok
      refine ⟨"" ++ S ++ "\n", ?_, ?_⟩
      · rw [hok.1.symm, hser]
      · rw [keptLines_append "" S (Or.inl rfl) hnl hcr htr]
        simp
    · simp only [installHook, hp, updateHookScript, hres, hc, Prod.mk.injEq] at hok
      refine ⟨c ++ S ++ "\n", ?_, ?_⟩
      · rw [hok.1.symm, hser]
      · rw [keptLines_append c S (Or.inr hlast) hnl hcr htr]
        simp

theorem installAppend_readAll_last_wit :
    ∃ content,
      Fs.registry ⟨some "myhook.sh\n", ["0-myhook.sh"]⟩ = some content ∧
      (keptLines content).getLast? = some "myhook.sh" :=
  installAppend_readAll_last ⟨fun _ _ => none⟩ ⟨some "", []⟩ "pre-commit" "myhook.sh"
    (.file "myhook.sh") ⟨some "myhook.sh\n", ["0-myhook.sh"]⟩ (by decide) rfl rfl
    (by decide) (by decide) (by decide) (Or.inr (Or.inl rfl)) rfl

end GitHook

section SanityChecks
open GitHook
example : trimSpace " x " = "x" := by decide
example : scanLinesL "a\n\nb".data = ["a".data, [], "b".data] := by decide
example : scanLinesL "a\n".data = ["a".data] := by decide
example : scanLinesL "".data = [] := by decide
example : filepathBase "a/b.sh" = "b.sh" := by decide
example : ParseHookString "foo.sh" = .ok (.file "foo.sh") := rfl
example : goUrlParse "http://h/a b" = some ⟨"http", "h", "/a b", "/a b"⟩ := by decide
example : (goUrlParse "http://h/a b").map urlString = some "http://h/a%20b" := by decide
example : goUrlParse "http://h/%zz" = none := by decide
example : ParseHookString "http://h/%zz" = .ok (.file "http://h/%zz") := rfl
example : (goUrlParse "http://example.com/fmt.sh").map urlString
    = some "http://example.com/fmt.sh" := by decide
example : installHook ⟨fun _ _ => none⟩ ⟨some "", []⟩ "myhook.sh"
    = (⟨some "myhook.sh\n", ["0-myhook.sh"]⟩, none) := rfl
example : installHook ⟨fun _ _ => none⟩ ⟨some "", []⟩ " "
    = (⟨some " \n", ["0- "]⟩, none) := rfl
example : allHooks ⟨some " \n", ["0- "]⟩ = .ok [] := rfl
example : updateHooks ⟨fun _ _ => none⟩ ⟨some "a\nhttp://h/b.sh\n", ["junk"]⟩
    = (⟨some "a\nhttp://h/b.sh\n", ["0-a", "1-b.sh"]⟩, none) := rfl
example : runTest ⟨false, true, false, fun _ => none⟩ ⟨none, ["0-a"]⟩ "pre-commit" ["m"]
    = ([], none) := rfl
example :
    runTest ⟨false, false, false, fun s => if s = "0-a" then some (.ioError "x") else none⟩
      ⟨none, ["1-b", "0-a"]⟩ "pre-commit" []
    = ([⟨"0-a", []⟩], some (.ioError "x")) := rfl
example : isCorrectTiming "pre-commit" = true := by decide
end SanityChecks
